import Mathlib

/-!
Shallow embedding of the csv-reader crate (src/lib.rs, src/parser/mod.rs,
src/parser/default.rs).

Conventions of the embedding:
* Bytes and Unicode code points are `Nat`.
* Byte buffers, row spans and field spans are `List Nat` (a span is the list
  of its bytes; the zero-copy offsets of the source become list take/drop).
* Rust `usize` arithmetic follows release-mode semantics: subtraction wraps
  modulo 2^64 (see `wsub1`).
* `f64` values are embedded as exact rationals of the decimal token
  (`FloatVal.finite`), plus `inf`/`nan` markers; the claims under study
  concern lexical acceptance and classification, not IEEE rounding.
* Fallible operations return `Option`/`Except`; a Rust panic is an
  `Option.none` (row level) or `RResult.panic` (file level).
-/

namespace Csv

/-- lib.rs: `pub const NEWLINE: u8 = 10u8`. -/
def NEWLINE : Nat := 10

/-- lib.rs: `pub const SEMICOLON: u8 = 59u8`. -/
def SEMICOLON : Nat := 59

/-- parser/mod.rs `ParseContext`: holds the field delimiter byte. -/
structure ParseContext where
  delimiter : Nat

/-- parser/mod.rs `ParseContext::default`: the delimiter is the semicolon. -/
def ParseContext.default : ParseContext := ⟨SEMICOLON⟩

/-- The `memchr::memchr` primitive used by the source: index of the first
occurrence of `n` in the list, if any. -/
def memchr (n : Nat) : List Nat → Option Nat
  | [] => none
  | b :: rest => if b = n then some 0 else (memchr n rest).map (fun j => j + 1)

lemma memchr_nil (n : Nat) : memchr n [] = none := rfl

lemma memchr_none_iff (n : Nat) : ∀ l : List Nat, memchr n l = none ↔ n ∉ l := by
  intro l
  induction l with
  | nil => simp [memchr]
  | cons b rest ih =>
    by_cases hb : b = n
    · subst hb; simp [memchr]
    · simp [memchr, hb, Option.map_eq_none, ih, Ne.symm hb]

lemma memchr_lt {n : Nat} : ∀ {l : List Nat} {i : Nat}, memchr n l = some i → i < l.length := by
  intro l
  induction l with
  | nil => intro i h; simp [memchr] at h
  | cons b rest ih =>
    intro i h
    by_cases hb : b = n
    · simp [memchr, hb] at h
      simp only [List.length_cons]
      omega
    · simp [memchr, hb] at h
      obtain ⟨j, hj, hij⟩ := h
      have := ih hj
      simp only [List.length_cons]
      omega

/-- Characterization of a successful `memchr`: the list splits as the
(needle-free) prefix of length `i`, the needle, and the rest. -/
lemma memchr_some_decomp {n : Nat} :
    ∀ {l : List Nat} {i : Nat}, memchr n l = some i →
      l.take i ++ n :: l.drop (i + 1) = l ∧ n ∉ l.take i := by
  intro l
  induction l with
  | nil => intro i h; simp [memchr] at h
  | cons b rest ih =>
    intro i h
    by_cases hb : b = n
    · simp [memchr, hb] at h
      subst hb
      subst h
      simp
    · simp [memchr, hb] at h
      obtain ⟨j, hj, hij⟩ := h
      obtain ⟨hdec, hmem⟩ := ih hj
      subst hij
      constructor
      · simpa using hdec
      · simp [List.take_succ_cons, hmem, Ne.symm hb]

lemma memchr_append_some {n : Nat} :
    ∀ {l : List Nat} {i : Nat} (rest : List Nat), memchr n l = some i →
      memchr n (l ++ rest) = some i := by
  intro l
  induction l with
  | nil => intro i rest h; simp [memchr] at h
  | cons b t ih =>
    intro i rest h
    by_cases hb : b = n
    · simp [memchr, hb] at h ⊢
      omega
    · simp [memchr, hb] at h ⊢
      obtain ⟨j, hj, hij⟩ := h
      exact ⟨j, ih rest hj, hij⟩

/-- lib.rs `CsvReader::read`, segmentation part: the `while let` loop over
`memchr(NEWLINE, &span[offset..])` yields the bytes before each newline,
excluding the newline; the offset-advancing loop of the source is the
recursion on the remaining suffix. When no newline remains, the loop stops
and the trailing bytes are dropped. -/
def rowSpans (buf : List Nat) : List (List Nat) :=
  match h : memchr NEWLINE buf with
  | some i => buf.take i :: rowSpans (buf.drop (i + 1))
  | none => []
termination_by buf.length
decreasing_by
  have := memchr_lt h
  simp only [List.length_drop]
  omega

lemma rowSpans_eq_some {buf : List Nat} {i : Nat} (h : memchr NEWLINE buf = some i) :
    rowSpans buf = buf.take i :: rowSpans (buf.drop (i + 1)) := by
  rw [rowSpans.eq_def, h]

lemma rowSpans_eq_none {buf : List Nat} (h : memchr NEWLINE buf = none) :
    rowSpans buf = [] := by
  rw [rowSpans.eq_def, h]

/-! ## UTF-8 (Rust `String::from_utf8` / `String::from_utf8_lossy`) -/

/-- UTF-8 continuation byte. -/
def cont (c : Nat) : Bool := decide (128 ≤ c ∧ c ≤ 191)

/-- Allowed second byte of a three-byte sequence (excludes overlong forms and
surrogates, as `String::from_utf8` does). -/
def utf8Cont3 (b c1 : Nat) : Bool :=
  if b = 224 then decide (160 ≤ c1 ∧ c1 ≤ 191)
  else if b = 237 then decide (128 ≤ c1 ∧ c1 ≤ 159)
  else cont c1

/-- Allowed second byte of a four-byte sequence (excludes overlong forms and
code points above U+10FFFF). -/
def utf8Cont4 (b c1 : Nat) : Bool :=
  if b = 240 then decide (144 ≤ c1 ∧ c1 ≤ 191)
  else if b = 244 then decide (128 ≤ c1 ∧ c1 ≤ 143)
  else cont c1

/-- Strict UTF-8 decoding of a byte list to its code points, `none` on any
invalid sequence: the validation done by `String::from_utf8` in
`StringParser::parse`. -/
def utf8Decode : List Nat → Option (List Nat)
  | [] => some []
  | b :: rest =>
    if b ≤ 127 then (utf8Decode rest).map (fun t => b :: t)
    else if 194 ≤ b ∧ b ≤ 223 then
      match rest with
      | c1 :: r =>
        if cont c1 then (utf8Decode r).map (fun t => ((b - 192) * 64 + (c1 - 128)) :: t)
        else none
      | [] => none
    else if 224 ≤ b ∧ b ≤ 239 then
      match rest with
      | c1 :: c2 :: r =>
        if utf8Cont3 b c1 && cont c2 then
          (utf8Decode r).map (fun t => ((b - 224) * 4096 + (c1 - 128) * 64 + (c2 - 128)) :: t)
        else none
      | _ => none
    else if 240 ≤ b ∧ b ≤ 244 then
      match rest with
      | c1 :: c2 :: c3 :: r =>
        if utf8Cont4 b c1 && cont c2 && cont c3 then
          (utf8Decode r).map (fun t =>
            ((b - 240) * 262144 + (c1 - 128) * 4096 + (c2 - 128) * 64 + (c3 - 128)) :: t)
        else none
      | _ => none
    else none

/-- Lossy UTF-8 decoding (`String::from_utf8_lossy`): an invalid sequence
yields U+FFFD (65533). The source replaces each maximal invalid subpart with
one U+FFFD; this model resynchronizes one byte after the offending lead byte,
which can only differ from the source in how many replacement characters an
invalid run produces — every claim below is insensitive to that count, since
any single U+FFFD already fails the float, bool and string token grammars. -/
def utf8Lossy : List Nat → List Nat
  | [] => []
  | b :: rest =>
    if b ≤ 127 then b :: utf8Lossy rest
    else if 194 ≤ b ∧ b ≤ 223 then
      match rest with
      | c1 :: r =>
        if cont c1 then ((b - 192) * 64 + (c1 - 128)) :: utf8Lossy r
        else 65533 :: utf8Lossy (c1 :: r)
      | [] => [65533]
    else if 224 ≤ b ∧ b ≤ 239 then
      match rest with
      | c1 :: c2 :: r =>
        if utf8Cont3 b c1 && cont c2 then
          ((b - 224) * 4096 + (c1 - 128) * 64 + (c2 - 128)) :: utf8Lossy r
        else 65533 :: utf8Lossy (c1 :: c2 :: r)
      | [c1] => 65533 :: utf8Lossy [c1]
      | [] => [65533]
    else if 240 ≤ b ∧ b ≤ 244 then
      match rest with
      | c1 :: c2 :: c3 :: r =>
        if utf8Cont4 b c1 && cont c2 && cont c3 then
          ((b - 240) * 262144 + (c1 - 128) * 4096 + (c2 - 128) * 64 + (c3 - 128)) :: utf8Lossy r
        else 65533 :: utf8Lossy (c1 :: c2 :: c3 :: r)
      | [c1, c2] => 65533 :: utf8Lossy [c1, c2]
      | [c1] => 65533 :: utf8Lossy [c1]
      | [] => [65533]
    else 65533 :: utf8Lossy rest

/-- Rust `char::is_whitespace` (the Unicode White_Space code points), used by
`str::trim`. -/
def isWhiteCp (c : Nat) : Bool :=
  decide (c = 9 ∨ c = 10 ∨ c = 11 ∨ c = 12 ∨ c = 13 ∨ c = 32 ∨ c = 133 ∨ c = 160 ∨
    c = 5760 ∨ (8192 ≤ c ∧ c ≤ 8202) ∨ c = 8232 ∨ c = 8233 ∨ c = 8239 ∨ c = 8287 ∨
    c = 12288)

/-- Rust `str::trim`: strip leading and trailing whitespace. -/
def trim (cs : List Nat) : List Nat :=
  ((cs.dropWhile isWhiteCp).reverse.dropWhile isWhiteCp).reverse

/-! ## fast_float (the crate behind `FloatParser`) -/

def isDigitCp (c : Nat) : Bool := decide (48 ≤ c ∧ c ≤ 57)

def digitsToNat (ds : List Nat) : Nat := ds.foldl (fun a c => a * 10 + (c - 48)) 0

def lowerCp (c : Nat) : Nat := if 65 ≤ c ∧ c ≤ 90 then c + 32 else c

def lowerAll (cs : List Nat) : List Nat := cs.map lowerCp

/-- The token `inf` as code points. -/
def tokInf : List Nat := [105, 110, 102]

/-- The token `infinity` as code points. -/
def tokInfinity : List Nat := [105, 110, 102, 105, 110, 105, 116, 121]

/-- The token `nan` as code points. -/
def tokNan : List Nat := [110, 97, 110]

/-- Strip at most one leading `+` (43) or `-` (45); the Bool records a minus. -/
def dropSign1 (cs : List Nat) : List Nat × Bool :=
  match cs with
  | c :: r => if c = 43 then (r, false) else if c = 45 then (r, true) else (c :: r, false)
  | [] => ([], false)

/-- An `f64` embedded for this development: `finite m e` is the exact decimal
value `m * 10 ^ e` of the token, and `inf`/`nan` mark the special values.
The claims concern lexical acceptance and classification, not IEEE-754
rounding, so the exact decimal stands in for the nearest double. -/
inductive FloatVal where
  | finite : Int → Int → FloatVal
  | inf : Bool → FloatVal
  | nan : FloatVal
deriving DecidableEq

/-- The decimal value of integer digits `d1`, fractional digits `d2` and
exponent `e`, as a significand/exponent pair. -/
def mkDec (d1 d2 : List Nat) (e : Int) : Int × Int :=
  ((digitsToNat (d1 ++ d2) : Int), e - (d2.length : Int))

/-- The exponent part of the fast_float grammar, required to consume the whole
remaining input (fast_float `parse` fails when bytes are left over). -/
def parseExpTail : List Nat → Option Int
  | [] => some 0
  | c :: r =>
    if c = 101 ∨ c = 69 then
      let p := dropSign1 r
      let d := p.1.takeWhile isDigitCp
      let r3 := p.1.dropWhile isDigitCp
      if d = [] ∨ r3 ≠ [] then none
      else some (if p.2 then -(digitsToNat d : Int) else (digitsToNat d : Int))
    else none

/-- The number part of the fast_float grammar: digits with an optional single
decimal point (digits required on at least one side) and an optional
exponent, consuming the whole input. -/
def parseNumber (cs : List Nat) : Option (Int × Int) :=
  let d1 := cs.takeWhile isDigitCp
  let r1 := cs.dropWhile isDigitCp
  match r1 with
  | c :: r2 =>
    if c = 46 then
      let d2 := r2.takeWhile isDigitCp
      let r3 := r2.dropWhile isDigitCp
      if d1 = [] ∧ d2 = [] then none
      else
        match parseExpTail r3 with
        | some e => some (mkDec d1 d2 e)
        | none => none
    else if d1 = [] then none
    else
      match parseExpTail (c :: r2) with
      | some e => some (mkDec d1 [] e)
      | none => none
  | [] =>
    if d1 = [] then none
    else
      match parseExpTail [] with
      | some e => some (mkDec d1 [] e)
      | none => none

/-- `fast_float::parse` on an already trimmed token: optional sign, then
either one of the case-insensitive special tokens `inf`, `infinity`, `nan`,
or a decimal/scientific number; the whole input must be consumed. -/
def fastFloatParse (cs : List Nat) : Option FloatVal :=
  let p := dropSign1 cs
  if lowerAll p.1 = tokInf ∨ lowerAll p.1 = tokInfinity then some (FloatVal.inf p.2)
  else if lowerAll p.1 = tokNan then some FloatVal.nan
  else
    match parseNumber p.1 with
    | some me => some (FloatVal.finite (if p.2 then -me.1 else me.1) me.2)
    | none => none

/-! ## The field parsers (parser/mod.rs) -/

/-- parser/mod.rs `FloatParser::parse`: `from_utf8_lossy`, `trim`, then
`fast_float::parse`. -/
def floatParse (span : List Nat) : Option FloatVal :=
  fastFloatParse (trim (utf8Lossy span))

/-- parser/mod.rs `StringParser::parse`: strict `String::from_utf8`, then
`trim().to_string()`. -/
def stringParse (span : List Nat) : Option (List Nat) :=
  (utf8Decode span).map trim

/-- The token `true` as code points. -/
def tokTrue : List Nat := [116, 114, 117, 101]

/-- The token `false` as code points. -/
def tokFalse : List Nat := [102, 97, 108, 115, 101]

/-- parser/mod.rs `BoolParser::parse`: `from_utf8_lossy`, `trim`, then
`str::parse::<bool>`, which accepts exactly the literals `true` and `false`,
case-sensitively. -/
def boolParse (span : List Nat) : Option Bool :=
  let s := trim (utf8Lossy span)
  if s = tokTrue then some true
  else if s = tokFalse then some false
  else none

/-! ## The untyped decode path (parser/default.rs) -/

/-- parser/default.rs `FieldValue`. -/
inductive FieldValue where
  | float : FloatVal → FieldValue
  | string : List Nat → FieldValue
deriving DecidableEq

/-- parser/default.rs `DefaultRowParser::try_parse_field`: empty span gives
no value, else the float decode is attempted before the string decode. -/
def tryParseField (span : List Nat) : Option FieldValue :=
  if span.isEmpty then none
  else
    match floatParse span with
    | some v => some (FieldValue.float v)
    | none =>
      match stringParse span with
      | some s => some (FieldValue.string s)
      | none => none

/-- Rust `usize` subtraction of one with release-mode wrap-around: the value
of `n - 1` computed by `DefaultRowParser::parse` on `row.len()`. -/
def wsub1 (n : Nat) : Nat := (n + 2 ^ 64 - 1) % 2 ^ 64

/-- The `while let` loop of parser/default.rs `DefaultRowParser::parse`:
pushes one decoded field per delimiter found; returns the pushed fields and
the suffix that remains after the loop (the source's `&row[start..]`). -/
def defaultRowLoop (d : Nat) (row : List Nat) : List (Option FieldValue) × List Nat :=
  match h : memchr d row with
  | some i =>
    let p := defaultRowLoop d (row.drop (i + 1))
    (tryParseField (row.take i) :: p.1, p.2)
  | none => ([], row)
termination_by row.length
decreasing_by
  have := memchr_lt h
  simp only [List.length_drop]
  omega

/-- parser/default.rs `DefaultRowParser::parse`: after the loop, the trailing
segment is pushed only when `start < row.len() - 1` — the source computes
`row.len() - 1` in `usize`, so the guard uses `wsub1`; `start` is the length
of the consumed prefix. -/
def defaultRowParse (d : Nat) (row : List Nat) : List (Option FieldValue) :=
  let p := defaultRowLoop d row
  if row.length - p.2.length < wsub1 row.length then p.1 ++ [tryParseField p.2]
  else p.1

/-! ## The schema-typed path (parser/mod.rs `RowSpanIterator`, the `schema!`
macro of lib.rs, `try_parse`) -/

/-- One step of parser/mod.rs `RowSpanIterator::next`, with the absolute
offset replaced by the remaining suffix `&row[offset..]`. When a delimiter is
found, the span before it is yielded and the offset moves past the
delimiter; otherwise a nonempty remainder is yielded and — exactly as in the
source, which does not advance `offset` in that branch — the remaining
suffix is unchanged, so subsequent calls yield the same remainder again. An
empty remainder ends the iteration. -/
def nextFieldS (d : Nat) (rest : List Nat) : Option (List Nat × List Nat) :=
  match memchr d rest with
  | some i => some (rest.take i, rest.drop (i + 1))
  | none => if rest.isEmpty then none else some (rest, rest)

/-- The spans produced by at most `k` calls of `RowSpanIterator::next`,
stopping at the first `none`. -/
def iterTake (d : Nat) : Nat → List Nat → List (List Nat)
  | 0, _ => []
  | k + 1, rest =>
    match nextFieldS d rest with
    | none => []
    | some (span, rest2) => span :: iterTake d k rest2

/-- The scalar types a `schema!` declaration can bind
(`IntoFieldParser` impls in parser/mod.rs). -/
inductive FieldTy where
  | bool : FieldTy
  | f32 : FieldTy
  | f64 : FieldTy
  | string : FieldTy
deriving DecidableEq

/-- A decoded schema field value. `f32` and `f64` both go through
`FloatParser` and are embedded alike (see `FloatVal`). -/
inductive SchemaVal where
  | bool : Bool → SchemaVal
  | float : FloatVal → SchemaVal
  | string : List Nat → SchemaVal
deriving DecidableEq

/-- parser/mod.rs `try_parse::<T>`: dispatch to the field parser of the
declared type (`IntoFieldParser`), mapping a decode failure to `none`. -/
def tryParse : FieldTy → List Nat → Option SchemaVal
  | FieldTy.bool, span => (boolParse span).map SchemaVal.bool
  | FieldTy.f32, span => (floatParse span).map SchemaVal.float
  | FieldTy.f64, span => (floatParse span).map SchemaVal.float
  | FieldTy.string, span => (stringParse span).map SchemaVal.string

/-- The row parser generated by the `schema!` macro (lib.rs): for each
declared field in order, `try_parse(iterator.next().unwrap())`. The `unwrap`
of an exhausted iterator is a panic, modelled as `none` for the whole row. -/
def schemaParseAux (d : Nat) : List FieldTy → List Nat → Option (List (Option SchemaVal))
  | [], _ => some []
  | ty :: tys, rest =>
    match nextFieldS d rest with
    | none => none
    | some (span, rest2) =>
      match schemaParseAux d tys rest2 with
      | some vs => some (tryParse ty span :: vs)
      | none => none

/-- Schema-bound parsing of one row (the generated `RowParser::parse`). -/
def schemaParse (tys : List FieldTy) (d : Nat) (row : List Nat) :
    Option (List (Option SchemaVal)) :=
  schemaParseAux d tys row

/-- The delimiter-terminated segments of a row and the remainder after the
last delimiter (a description of the row used to characterize the schema
path; not itself source code). -/
def splitSegs (d : Nat) (row : List Nat) : List (List Nat) × List Nat :=
  match h : memchr d row with
  | some i =>
    let p := splitSegs d (row.drop (i + 1))
    (row.take i :: p.1, p.2)
  | none => ([], row)
termination_by row.length
decreasing_by
  have := memchr_lt h
  simp only [List.length_drop]
  omega

lemma splitSegs_eq_some {d : Nat} {row : List Nat} {i : Nat} (h : memchr d row = some i) :
    splitSegs d row =
      (row.take i :: (splitSegs d (row.drop (i + 1))).1, (splitSegs d (row.drop (i + 1))).2) := by
  rw [splitSegs.eq_def, h]

lemma splitSegs_eq_none {d : Nat} {row : List Nat} (h : memchr d row = none) :
    splitSegs d row = ([], row) := by
  rw [splitSegs.eq_def, h]

/-! ## The reader (lib.rs `CsvReader`) -/

/-- lib.rs `CsvReader::read`: segment the buffer into rows, parse every row
(there is no header handling), and return `Ok` — the loop has no failure
path. The source parses each row inside the segmentation loop; composing the
per-row parser over `rowSpans` is that same computation. -/
def csvRead {ρ : Type} (parse : List Nat → ρ) (span : List Nat) : Except Unit (List ρ) :=
  Except.ok ((rowSpans span).map parse)

/-- The outcome of a `read_file` call: a returned value, a returned error, or
a panic. -/
inductive RResult (α : Type) where
  | ok : α → RResult α
  | err : RResult α
  | panic : RResult α
deriving DecidableEq

/-- Modelled from the spec: the `memmap` mapping step used by
`CsvReader::read_file`, which is outside this crate. Per the spec, the
memory-mapping mechanism rejects zero-length mappings ("some memory-mapping
mechanisms reject zero-length mappings and this must be special-cased"); on
a nonempty file it exposes the file contents. -/
def mmapFile (contents : List Nat) : Except Unit (List Nat) :=
  if contents.length = 0 then Except.error () else Except.ok contents

/-- lib.rs `CsvReader::read_file` on the untyped default schema. The file
system is a map from paths (opaque keys) to contents. `File::open` failure
propagates with `?` as an error; the mapping result is `.unwrap()`ed, so a
mapping failure is a panic, not an error; then `read` runs on the mapped
bytes. -/
def readFile (fs : Nat → Option (List Nat)) (path : Nat) :
    RResult (List (List (Option FieldValue))) :=
  match fs path with
  | none => RResult.err
  | some contents =>
    match mmapFile contents with
    | Except.error _ => RResult.panic
    | Except.ok m =>
      match csvRead (defaultRowParse SEMICOLON) m with
      | Except.ok rows => RResult.ok rows
      | Except.error _ => RResult.err

/-! ## Declarative float-token grammars (for C8) -/

/-- All code points are ASCII digits. -/
def allDigits (l : List Nat) : Prop := ∀ c ∈ l, isDigitCp c = true

/-- An optional single sign character. -/
def optSignP (s : List Nat) : Prop := s = [] ∨ s = [43] ∨ s = [45]

/-- The claim's "optional fractional part": a decimal point followed by
digits, or nothing. -/
def fracP (f : List Nat) : Prop := f = [] ∨ ∃ d2, f = 46 :: d2 ∧ allDigits d2

/-- The "optional exponent": `e`/`E`, an optional sign, and digits, or
nothing. -/
def expP (e : List Nat) : Prop :=
  e = [] ∨
    ∃ c s d, (c = 101 ∨ c = 69) ∧ e = c :: (s ++ d) ∧ optSignP s ∧ d ≠ [] ∧ allDigits d

/-- Written from the claim's words, not from the source: a token of "the
decimal/scientific floating-point lexical grammar (optional sign, digits,
optional fractional part, optional exponent)". -/
def specFloatToken (cs : List Nat) : Prop :=
  ∃ s d f e, cs = s ++ d ++ f ++ e ∧ optSignP s ∧ d ≠ [] ∧ allDigits d ∧ fracP f ∧ expP e

/-- A mantissa as fast_float accepts it: digits with an optional single
decimal point and digits required on at least one side. -/
def mantissaP (m : List Nat) : Prop :=
  (m ≠ [] ∧ allDigits m) ∨
    ∃ d1 d2, m = d1 ++ 46 :: d2 ∧ allDigits d1 ∧ allDigits d2 ∧ (d1 ≠ [] ∨ d2 ≠ [])

/-- One of the case-insensitive special tokens `inf`, `infinity`, `nan`. -/
def specialP (b : List Nat) : Prop :=
  lowerAll b = tokInf ∨ lowerAll b = tokInfinity ∨ lowerAll b = tokNan

/-- The amended grammar: the claim's grammar with digits allowed on either
side of the decimal point and with the special tokens accepted. -/
def floatTokenAmended (cs : List Nat) : Prop :=
  ∃ s b, cs = s ++ b ∧ optSignP s ∧
    (specialP b ∨ ∃ m e, b = m ++ e ∧ mantissaP m ∧ expP e)

/-! ### List helper lemmas -/

lemma takeWhile_all {p : Nat → Bool} :
    ∀ {l : List Nat}, (∀ c ∈ l, p c = true) → l.takeWhile p = l := by
  intro l
  induction l with
  | nil => intro _; rfl
  | cons a t ih =>
    intro h
    have ha := h a (List.mem_cons_self a t)
    simp [List.takeWhile_cons, ha, ih (fun c hc => h c (List.mem_cons_of_mem a hc))]

lemma dropWhile_all {p : Nat → Bool} :
    ∀ {l : List Nat}, (∀ c ∈ l, p c = true) → l.dropWhile p = [] := by
  intro l
  induction l with
  | nil => intro _; rfl
  | cons a t ih =>
    intro h
    have ha := h a (List.mem_cons_self a t)
    simp [List.dropWhile_cons, ha, ih (fun c hc => h c (List.mem_cons_of_mem a hc))]

lemma takeWhile_app {p : Nat → Bool} :
    ∀ (l1 l2 : List Nat), (∀ c ∈ l1, p c = true) →
      (∀ c, l2.head? = some c → p c = false) →
      (l1 ++ l2).takeWhile p = l1 ∧ (l1 ++ l2).dropWhile p = l2 := by
  intro l1
  induction l1 with
  | nil =>
    intro l2 _ h2
    cases l2 with
    | nil => exact ⟨rfl, rfl⟩
    | cons c t =>
      have := h2 c rfl
      simp [List.takeWhile_cons, List.dropWhile_cons, this]
  | cons a t ih =>
    intro l2 h1 h2
    have ha := h1 a (List.mem_cons_self a t)
    have := ih l2 (fun c hc => h1 c (List.mem_cons_of_mem a hc)) h2
    simp [List.takeWhile_cons, List.dropWhile_cons, ha, this.1, this.2]

lemma allDigits_takeWhile (l : List Nat) : allDigits (l.takeWhile isDigitCp) := by
  intro c hc
  exact List.mem_takeWhile_imp hc

/-- The sign prefix stripped by `dropSign1`, as a decomposition. -/
lemma dropSign1_decomp (cs : List Nat) :
    ∃ s, optSignP s ∧ cs = s ++ (dropSign1 cs).1 := by
  cases cs with
  | nil => exact ⟨[], Or.inl rfl, rfl⟩
  | cons c r =>
    by_cases h43 : c = 43
    · subst h43
      exact ⟨[43], Or.inr (Or.inl rfl), by simp [dropSign1]⟩
    · by_cases h45 : c = 45
      · subst h45
        exact ⟨[45], Or.inr (Or.inr rfl), by simp [dropSign1]⟩
      · exact ⟨[], Or.inl rfl, by simp [dropSign1, h43, h45]⟩

lemma dropSign1_append {s b : List Nat} (hs : optSignP s)
    (hb : ∀ c, b.head? = some c → c ≠ 43 ∧ c ≠ 45) :
    (dropSign1 (s ++ b)).1 = b := by
  rcases hs with h | h | h
  · subst h
    cases b with
    | nil => rfl
    | cons c r =>
      have := hb c rfl
      simp [dropSign1, this.1, this.2]
  · subst h
    simp [dropSign1]
  · subst h
    simp [dropSign1]

/-! ### The fast_float recognizer matches the declarative grammar -/

lemma parseExpTail_expP : ∀ {r : List Nat} {e0 : Int}, parseExpTail r = some e0 → expP r := by
  intro r e0 h
  cases r with
  | nil => exact Or.inl rfl
  | cons c rr =>
    simp only [parseExpTail] at h
    by_cases hc : c = 101 ∨ c = 69
    · rw [if_pos hc] at h
      by_cases hcond :
          (dropSign1 rr).1.takeWhile isDigitCp = [] ∨ (dropSign1 rr).1.dropWhile isDigitCp ≠ []
      · rw [if_pos hcond] at h
        exact absurd h (by simp)
      · push_neg at hcond
        obtain ⟨hd, hr3⟩ := hcond
        obtain ⟨s2, hs2, hrr⟩ := dropSign1_decomp rr
        have hp : (dropSign1 rr).1 = (dropSign1 rr).1.takeWhile isDigitCp := by
          conv_lhs => rw [← List.takeWhile_append_dropWhile (p := isDigitCp) (l := (dropSign1 rr).1)]
          rw [hr3]
          simp
        refine Or.inr ⟨c, s2, (dropSign1 rr).1.takeWhile isDigitCp, hc, ?_, hs2, hd,
          allDigits_takeWhile _⟩
        conv_rhs => rw [← hp]
        rw [← hrr]
    · rw [if_neg hc] at h
      exact absurd h (by simp)

lemma expP_isSome {e : List Nat} (he : expP e) : (parseExpTail e).isSome = true := by
  rcases he with h | ⟨c, s, d, hc, he2, hs, hd, hdig⟩
  · subst h
    rfl
  · subst he2
    have h1 : (dropSign1 (s ++ d)).1 = d := by
      apply dropSign1_append hs
      intro x hx
      cases d with
      | nil => exact absurd rfl hd
      | cons d0 dt =>
        obtain rfl : d0 = x := by simpa using hx
        have := hdig d0 (List.mem_cons_self _ _)
        simp [isDigitCp] at this
        omega
    simp only [parseExpTail]
    rw [if_pos hc, h1, takeWhile_all hdig, dropWhile_all hdig]
    rw [if_neg (by simp [hd])]
    rfl

lemma parseNumber_decomp : ∀ {b : List Nat} {me : Int × Int}, parseNumber b = some me →
    ∃ m e, b = m ++ e ∧ mantissaP m ∧ expP e := by
  intro b me h
  have hb : b.takeWhile isDigitCp ++ b.dropWhile isDigitCp = b :=
    List.takeWhile_append_dropWhile isDigitCp b
  cases hsplit : b.dropWhile isDigitCp with
  | nil =>
    rw [hsplit] at hb
    simp only [parseNumber, hsplit] at h
    by_cases hd : b.takeWhile isDigitCp = []
    · rw [if_pos hd] at h
      exact absurd h (by simp)
    · exact ⟨b.takeWhile isDigitCp, [], hb.symm, Or.inl ⟨hd, allDigits_takeWhile _⟩,
        Or.inl rfl⟩
  | cons c r2 =>
    rw [hsplit] at hb
    simp only [parseNumber, hsplit] at h
    by_cases hc46 : c = 46
    · subst hc46
      rw [if_pos rfl] at h
      by_cases hcond : b.takeWhile isDigitCp = [] ∧ r2.takeWhile isDigitCp = []
      · rw [if_pos hcond] at h
        exact absurd h (by simp)
      · rw [if_neg hcond] at h
        cases hpe : parseExpTail (r2.dropWhile isDigitCp) with
        | none =>
          rw [hpe] at h
          exact absurd h (by simp)
        | some e0 =>
          have hr2 : r2.takeWhile isDigitCp ++ r2.dropWhile isDigitCp = r2 :=
            List.takeWhile_append_dropWhile isDigitCp r2
          refine ⟨b.takeWhile isDigitCp ++ 46 :: r2.takeWhile isDigitCp,
            r2.dropWhile isDigitCp, ?_, ?_, parseExpTail_expP hpe⟩
          · calc b = b.takeWhile isDigitCp ++ 46 :: r2 := hb.symm
              _ = b.takeWhile isDigitCp ++
                  46 :: (r2.takeWhile isDigitCp ++ r2.dropWhile isDigitCp) := by rw [hr2]
              _ = (b.takeWhile isDigitCp ++ 46 :: r2.takeWhile isDigitCp) ++
                  r2.dropWhile isDigitCp := by simp
          · exact Or.inr ⟨b.takeWhile isDigitCp, r2.takeWhile isDigitCp, rfl,
              allDigits_takeWhile _, allDigits_takeWhile _, not_and_or.mp hcond⟩
    · rw [if_neg hc46] at h
      by_cases hd : b.takeWhile isDigitCp = []
      · rw [if_pos hd] at h
        exact absurd h (by simp)
      · rw [if_neg hd] at h
        cases hpe : parseExpTail (c :: r2) with
        | none =>
          rw [hpe] at h
          exact absurd h (by simp)
        | some e0 =>
          exact ⟨b.takeWhile isDigitCp, c :: r2, hb.symm,
            Or.inl ⟨hd, allDigits_takeWhile _⟩, parseExpTail_expP hpe⟩

lemma expP_head_not_digit {e : List Nat} (he : expP e) :
    ∀ c, e.head? = some c → isDigitCp c = false ∧ c ≠ 46 := by
  rcases he with h | ⟨c, s, d, hc, he2, _, _, _⟩
  · subst h
    intro x hx
    simp at hx
  · subst he2
    intro x hx
    obtain rfl : c = x := by simpa using hx
    rcases hc with rfl | rfl <;> exact ⟨by decide, by decide⟩

lemma parseNumber_isSome {m e : List Nat} (hm : mantissaP m) (he : expP e) :
    (parseNumber (m ++ e)).isSome = true := by
  rcases hm with ⟨hm1, hm2⟩ | ⟨d1, d2, rfl, hdig1, hdig2, hne⟩
  · have hsp := takeWhile_app m e hm2 (fun c hc => (expP_head_not_digit he c hc).1)
    simp only [parseNumber, hsp.1, hsp.2]
    rcases he with rfl | ⟨c, s, d, hc, rfl, hs, hd, hdig⟩
    · simp [hm1, parseExpTail]
    · have hc46 : c ≠ 46 := by rcases hc with rfl | rfl <;> decide
      obtain ⟨e0, he0⟩ := Option.isSome_iff_exists.mp
        (expP_isSome (Or.inr ⟨c, s, d, hc, rfl, hs, hd, hdig⟩))
      simp [hc46, hm1, he0]
  · have h1 := takeWhile_app d1 (46 :: (d2 ++ e)) hdig1
      (fun c hc => by
        obtain rfl : (46 : Nat) = c := by simpa using hc
        decide)
    have h2 := takeWhile_app d2 e hdig2 (fun c hc => (expP_head_not_digit he c hc).1)
    have hassoc : (d1 ++ 46 :: d2) ++ e = d1 ++ 46 :: (d2 ++ e) := by simp
    rw [hassoc]
    simp only [parseNumber, h1.1, h1.2]
    have hcond : ¬(d1 = [] ∧ d2 = []) := by
      rcases hne with h | h <;> simp [h]
    obtain ⟨e0, he0⟩ := Option.isSome_iff_exists.mp (expP_isSome he)
    simp [h2.1, h2.2, hcond, he0]

lemma specialP_head {b : List Nat} (h : specialP b) :
    ∀ c, b.head? = some c → c ≠ 43 ∧ c ≠ 45 := by
  intro c hc
  rcases b with _ | ⟨b0, bt⟩
  · simp at hc
  obtain rfl : b0 = c := by simpa using hc
  constructor <;> rintro rfl <;>
    (rcases h with h | h | h <;> simp [lowerAll, lowerCp, tokInf, tokInfinity, tokNan] at h)

lemma mantissa_head {m e2 : List Nat} (h : mantissaP m) :
    ∀ c, (m ++ e2).head? = some c → c ≠ 43 ∧ c ≠ 45 := by
  intro c hc
  rcases h with ⟨hne, hdig⟩ | ⟨d1, d2, rfl, hdig1, hdig2, hne⟩
  · rcases m with _ | ⟨m0, mt⟩
    · exact absurd rfl hne
    obtain rfl : m0 = c := by simpa using hc
    have := hdig m0 (List.mem_cons_self _ _)
    simp [isDigitCp] at this
    constructor <;> omega
  · rcases d1 with _ | ⟨a, t⟩
    · obtain rfl : (46 : Nat) = c := by simpa using hc
      exact ⟨by decide, by decide⟩
    · obtain rfl : a = c := by simpa using hc
      have := hdig1 a (List.mem_cons_self _ _)
      simp [isDigitCp] at this
      constructor <;> omega

/-- fast_float acceptance coincides with the amended declarative grammar. -/
lemma fastFloatParse_isSome_iff (cs : List Nat) :
    (fastFloatParse cs).isSome = true ↔ floatTokenAmended cs := by
  constructor
  · intro h
    obtain ⟨s, hs, hcs⟩ := dropSign1_decomp cs
    simp only [fastFloatParse] at h
    by_cases h1 : lowerAll (dropSign1 cs).1 = tokInf ∨ lowerAll (dropSign1 cs).1 = tokInfinity
    · refine ⟨s, (dropSign1 cs).1, hcs, hs, Or.inl ?_⟩
      rcases h1 with h1 | h1
      · exact Or.inl h1
      · exact Or.inr (Or.inl h1)
    · rw [if_neg h1] at h
      by_cases h2 : lowerAll (dropSign1 cs).1 = tokNan
      · exact ⟨s, (dropSign1 cs).1, hcs, hs, Or.inl (Or.inr (Or.inr h2))⟩
      · rw [if_neg h2] at h
        cases hp : parseNumber (dropSign1 cs).1 with
        | none =>
          rw [hp] at h
          simp at h
        | some me =>
          obtain ⟨m, e, hme, hm, he⟩ := parseNumber_decomp hp
          exact ⟨s, (dropSign1 cs).1, hcs, hs, Or.inr ⟨m, e, hme, hm, he⟩⟩
  · rintro ⟨s, b, rfl, hs, hbody⟩
    have hhead : ∀ c, b.head? = some c → c ≠ 43 ∧ c ≠ 45 := by
      rcases hbody with hsp | ⟨m, e, rfl, hm, he⟩
      · exact specialP_head hsp
      · exact mantissa_head hm
    have hdrop : (dropSign1 (s ++ b)).1 = b := dropSign1_append hs hhead
    simp only [fastFloatParse, hdrop]
    rcases hbody with hsp | ⟨m, e, rfl, hm, he⟩
    · rcases hsp with h | h | h
      · simp [h]
      · simp [h]
      · by_cases h1 : lowerAll b = tokInf ∨ lowerAll b = tokInfinity
        · simp [h1]
        · simp only [h1, h, if_false, if_neg]
          split <;> simp
    · obtain ⟨me, hme⟩ := Option.isSome_iff_exists.mp (parseNumber_isSome hm he)
      by_cases h1 : lowerAll (m ++ e) = tokInf ∨ lowerAll (m ++ e) = tokInfinity
      · simp [h1]
      · by_cases h2 : lowerAll (m ++ e) = tokNan
        · simp only [h1, h2, if_neg, if_false]
          split <;> simp
        · simp [h1, h2, hme]

/-! ### Row-segmentation lemmas (C2, C7) -/

/-- Concatenation of spans (used to state that row spans tile the buffer). -/
def joinAll : List (List Nat) → List Nat
  | [] => []
  | x :: xs => x ++ joinAll xs

lemma rowSpans_no_newline : ∀ (buf : List Nat), ∀ r ∈ rowSpans buf, NEWLINE ∉ r := by
  intro buf
  induction buf using rowSpans.induct with
  | case1 buf i h ih =>
    rw [rowSpans_eq_some h]
    intro r hr
    rcases List.mem_cons.mp hr with rfl | hr2
    · exact (memchr_some_decomp h).2
    · exact ih r hr2
  | case2 buf h =>
    rw [rowSpans_eq_none h]
    intro r hr
    simp at hr

lemma rowSpans_append : ∀ (buf rest : List Nat), NEWLINE ∉ rest →
    rowSpans (buf ++ rest) = rowSpans buf := by
  intro buf
  induction buf using rowSpans.induct with
  | case1 buf i h ih =>
    intro rest hrest
    have hi : i < buf.length := memchr_lt h
    rw [rowSpans_eq_some (memchr_append_some rest h), rowSpans_eq_some h,
      List.take_append_of_le_length (by omega), List.drop_append_of_le_length (by omega)]
    rw [ih rest hrest]
  | case2 buf h =>
    intro rest hrest
    have hbuf : NEWLINE ∉ buf := (memchr_none_iff NEWLINE buf).mp h
    have : memchr NEWLINE (buf ++ rest) = none := by
      rw [memchr_none_iff]
      simp [hbuf, hrest]
    rw [rowSpans_eq_none this, rowSpans_eq_none h]

lemma rowSpans_tile : ∀ (buf : List Nat), ∃ rest, NEWLINE ∉ rest ∧
    buf = joinAll ((rowSpans buf).map (fun r => r ++ [NEWLINE])) ++ rest := by
  intro buf
  induction buf using rowSpans.induct with
  | case1 buf i h ih =>
    obtain ⟨rest, hrest, hdec⟩ := ih
    refine ⟨rest, hrest, ?_⟩
    rw [rowSpans_eq_some h]
    simp only [List.map_cons, joinAll]
    conv_lhs => rw [← (memchr_some_decomp h).1]
    conv_lhs => rw [hdec]
    simp
  | case2 buf h =>
    exact ⟨buf, (memchr_none_iff NEWLINE buf).mp h, by rw [rowSpans_eq_none h]; rfl⟩

lemma rowSpans_length : ∀ (buf : List Nat),
    (rowSpans buf).length = buf.count NEWLINE := by
  intro buf
  induction buf using rowSpans.induct with
  | case1 buf i h ih =>
    obtain ⟨hdec, hmem⟩ := memchr_some_decomp h
    rw [rowSpans_eq_some h]
    conv_rhs => rw [← hdec]
    simp only [List.length_cons, List.count_append, List.count_cons_self, ih]
    rw [List.count_eq_zero.mpr hmem]
    omega
  | case2 buf h =>
    rw [rowSpans_eq_none h,
      List.count_eq_zero.mpr ((memchr_none_iff NEWLINE buf).mp h)]
    rfl

/-! ### Schema-binding lemmas (C4, C10) -/

lemma nextFieldS_eq_some {d : Nat} {row : List Nat} {i : Nat} (h : memchr d row = some i) :
    nextFieldS d row = some (row.take i, row.drop (i + 1)) := by
  simp [nextFieldS, h]

lemma nextFieldS_eq_of_none {d : Nat} {row : List Nat} (h : memchr d row = none) :
    nextFieldS d row = if row.isEmpty then none else some (row, row) := by
  simp [nextFieldS, h]

/-- Once the delimiters are exhausted and the remainder is nonempty, every
further `next()` call yields the whole remainder again (the source does not
advance the offset in that branch), so each remaining schema field decodes
the same remainder. -/
lemma schemaParseAux_no_delim {d : Nat} {row : List Nat} (hm : memchr d row = none)
    (hne : row ≠ []) (tys : List FieldTy) :
    schemaParseAux d tys row = some (tys.map (fun ty => tryParse ty row)) := by
  induction tys with
  | nil => rfl
  | cons ty tys ih =>
    have hempty : row.isEmpty = false := by
      cases row
      · exact absurd rfl hne
      · rfl
    simp [schemaParseAux, nextFieldS, hm, hempty, ih]

/-- Full characterization of the generated schema parser in terms of the
delimiter-terminated segments and the trailing remainder of the row. -/
lemma schemaParseAux_char (d : Nat) : ∀ (tys : List FieldTy) (row : List Nat),
    (tys.length ≤ (splitSegs d row).1.length →
      schemaParseAux d tys row = some (List.zipWith tryParse tys (splitSegs d row).1)) ∧
    ((splitSegs d row).1.length < tys.length → (splitSegs d row).2 = [] →
      schemaParseAux d tys row = none) ∧
    ((splitSegs d row).1.length < tys.length → (splitSegs d row).2 ≠ [] →
      schemaParseAux d tys row =
        some (List.zipWith tryParse tys (splitSegs d row).1 ++
          (tys.drop (splitSegs d row).1.length).map
            (fun ty => tryParse ty (splitSegs d row).2))) := by
  intro tys
  induction tys with
  | nil =>
    intro row
    exact ⟨fun _ => rfl, fun h1 _ => absurd h1 (by simp), fun h1 _ => absurd h1 (by simp)⟩
  | cons ty tys ih =>
    intro row
    cases hm : memchr d row with
    | some i =>
      have hsegs := splitSegs_eq_some hm
      have hnext := nextFieldS_eq_some hm
      obtain ⟨ih1, ih2, ih3⟩ := ih (row.drop (i + 1))
      refine ⟨?_, ?_, ?_⟩
      · intro hlen
        rw [hsegs] at hlen ⊢
        simp only [List.length_cons] at hlen
        simp [schemaParseAux, hnext, ih1 (by omega)]
      · intro hlen hrem
        rw [hsegs] at hlen hrem
        simp only [List.length_cons] at hlen
        simp [schemaParseAux, hnext, ih2 (by omega) hrem]
      · intro hlen hrem
        rw [hsegs] at hlen hrem
        simp only [List.length_cons] at hlen
        rw [hsegs]
        simp [schemaParseAux, hnext, ih3 (by omega) hrem]
    | none =>
      have hsegs := splitSegs_eq_none hm
      refine ⟨?_, ?_, ?_⟩
      · intro hlen
        rw [hsegs] at hlen
        simp at hlen
      · intro hlen hrem
        rw [hsegs] at hrem
        simp only at hrem
        subst hrem
        simp [schemaParseAux, nextFieldS, memchr]
      · intro hlen hrem
        rw [hsegs] at hrem
        simp only at hrem
        rw [hsegs]
        rw [schemaParseAux_no_delim hm hrem]
        simp

/-! ### Bool decoding (C9) -/

lemma boolParse_iff (span : List Nat) (b : Bool) :
    boolParse span = some b ↔ trim (utf8Lossy span) = (if b then tokTrue else tokFalse) := by
  simp only [boolParse]
  by_cases h1 : trim (utf8Lossy span) = tokTrue
  · rw [if_pos h1]
    cases b <;> simp [h1, tokTrue, tokFalse]
  · rw [if_neg h1]
    by_cases h2 : trim (utf8Lossy span) = tokFalse
    · rw [if_pos h2]
      cases b <;> simp [h2, h1, tokTrue, tokFalse]
    · rw [if_neg h2]
      cases b <;> simp [h1, h2]

/-! ## The claims -/

/-- C1: the claim fails on the code. For row `a;;b` (bytes 97,59,59,98) with
delimiter `;`, the untyped decode path yields only 2 fields,
`[Some(String("a")), None]`: the one-byte trailing field `b` is dropped by
the `start < row.len() - 1` guard of `DefaultRowParser::parse`, so N
delimiters do not produce N+1 fields. `RowSpanIterator` likewise yields 1
span, not 2, for the row `a;` whose trailing segment is empty. -/
theorem c1_trailing_field_dropped :
    defaultRowParse SEMICOLON [97, 59, 59, 98] = [some (FieldValue.string [97]), none] ∧
    (defaultRowParse SEMICOLON [97, 59, 59, 98]).length ≠
      [97, 59, 59, 98].count SEMICOLON + 1 ∧
    iterTake SEMICOLON 5 [97, 59] = [[97]] ∧
    (iterTake SEMICOLON 5 [97, 59]).length ≠ [97, 59].count SEMICOLON + 1 := by
  have h1 : memchr SEMICOLON [97, 59, 59, 98] = some 1 := by decide
  have h2 : memchr SEMICOLON [59, 98] = some 0 := by decide
  have h3 : memchr SEMICOLON [98] = none := by decide
  have hev : defaultRowParse SEMICOLON [97, 59, 59, 98] =
      [some (FieldValue.string [97]), none] := by
    rw [defaultRowParse, defaultRowLoop.eq_def, h1]
    simp only [List.take, List.drop]
    rw [defaultRowLoop.eq_def, h2]
    simp only [List.take, List.drop]
    rw [defaultRowLoop.eq_def, h3]
    decide
  exact ⟨hev, by rw [hev]; decide, by decide, by decide⟩

/-- C2 counterexample: for the buffer `h\nd\n` (one header line and N = 1
newline-terminated data line), `read` returns 2 records, not the claimed
N = 1 — no header row is skipped. -/
theorem c2_header_not_skipped :
    csvRead (defaultRowParse SEMICOLON) [104, 10, 100, 10] =
      Except.ok [([] : List (Option FieldValue)), []] ∧
    ([([] : List (Option FieldValue)), []]).length ≠ 1 := by
  have hrows : rowSpans [104, 10, 100, 10] = [[104], [100]] := by
    rw [rowSpans_eq_some (show memchr NEWLINE [104, 10, 100, 10] = some 1 by decide)]
    simp only [List.take, List.drop]
    rw [rowSpans_eq_some (show memchr NEWLINE [100, 10] = some 1 by decide)]
    simp only [List.take, List.drop]
    rw [rowSpans_eq_none (show memchr NEWLINE ([] : List Nat) = none by decide)]
  have hr1 : defaultRowParse SEMICOLON [104] = [] := by
    rw [defaultRowParse, defaultRowLoop.eq_def,
      (show memchr SEMICOLON [104] = none by decide)]
    decide
  have hr2 : defaultRowParse SEMICOLON [100] = [] := by
    rw [defaultRowParse, defaultRowLoop.eq_def,
      (show memchr SEMICOLON [100] = none by decide)]
    decide
  refine ⟨?_, by decide⟩
  simp [csvRead, hrows, hr1, hr2]

/-- C2 amended: `read` skips no header row: for every buffer it returns
exactly one record per newline byte (one per newline-terminated line), so a
buffer of one header line and N newline-terminated data lines yields N+1
records, not N. -/
theorem c2_one_record_per_newline {ρ : Type} (parse : List Nat → ρ)
    (buf : List Nat) (rs : List ρ) (h : csvRead parse buf = Except.ok rs) :
    rs.length = buf.count NEWLINE := by
  simp only [csvRead, Except.ok.injEq] at h
  subst h
  simp [rowSpans_length]

theorem c2_one_record_per_newline_witness :
    ((rowSpans [104, 10, 100, 10]).map (defaultRowParse SEMICOLON)).length =
      [104, 10, 100, 10].count NEWLINE :=
  c2_one_record_per_newline (defaultRowParse SEMICOLON) [104, 10, 100, 10] _ rfl

/-- C3: the claim is right and the code is wrong: on a zero-length file the
mapping step fails (memory maps of length zero are rejected) and `read_file`
`.unwrap()`s that failure, so it panics instead of returning the empty
record sequence. -/
theorem c3_zero_length_file_panics :
    readFile (fun _ => some []) 0 = RResult.panic ∧
    RResult.panic ≠ RResult.ok ([] : List (List (Option FieldValue))) :=
  ⟨rfl, by decide⟩

/-- C4 counterexample: schema `(String, f64)` on row `foo;` (bytes
102,111,111,59): the row yields 1 field span while the schema declares 2,
and the generated parser panics (`unwrap` of `None`, modelled as `none`)
instead of producing a record with the missing trailing field as no-value. -/
theorem c4_short_row_panics :
    iterTake SEMICOLON 2 [102, 111, 111, 59] = [[102, 111, 111]] ∧
    schemaParse [FieldTy.string, FieldTy.f64] SEMICOLON [102, 111, 111, 59] = none :=
  ⟨by decide, by decide⟩

/-- C4 amended: write `(segs, rem)` for the delimiter-terminated segments
and trailing remainder of the row. If the schema declares at most
`segs.length` fields, a record is produced from the segments in order and
all extra fields are ignored. Otherwise, if `rem` is empty (empty row, or
row ending in the delimiter), parsing panics rather than producing a
record. Otherwise every schema field beyond the segments decodes that same
nonempty remainder again, so a missing trailing field is no-value only when
the remainder fails that field's type decode. -/
theorem c4_schema_binding_behavior (tys : List FieldTy) (d : Nat) (row : List Nat) :
    (tys.length ≤ (splitSegs d row).1.length →
      schemaParse tys d row = some (List.zipWith tryParse tys (splitSegs d row).1)) ∧
    ((splitSegs d row).1.length < tys.length → (splitSegs d row).2 = [] →
      schemaParse tys d row = none) ∧
    ((splitSegs d row).1.length < tys.length → (splitSegs d row).2 ≠ [] →
      schemaParse tys d row =
        some (List.zipWith tryParse tys (splitSegs d row).1 ++
          (tys.drop (splitSegs d row).1.length).map
            (fun ty => tryParse ty (splitSegs d row).2))) :=
  schemaParseAux_char d tys row

theorem c4_schema_binding_behavior_witness :
    schemaParse [FieldTy.f64, FieldTy.f64] SEMICOLON [49, 46, 53] =
      some [some (SchemaVal.float (FloatVal.finite 15 (-1))),
        some (SchemaVal.float (FloatVal.finite 15 (-1)))] := by
  have h := (c4_schema_binding_behavior [FieldTy.f64, FieldTy.f64] SEMICOLON [49, 46, 53]).2.2
    (by rw [splitSegs_eq_none (by decide)]; decide)
    (by rw [splitSegs_eq_none (by decide)]; decide)
  rw [h, splitSegs_eq_none (by decide)]
  decide

/-- C5: the untyped decode of one field span is the ordered fallback of the
claim: empty span gives no value; a successful Float decode yields a Float
value regardless of the String decode (numeric before text); otherwise a
successful String decode yields a String value; otherwise no value. In
particular `30.2` decodes to the Float 302e-1 and `hello` to the String
`hello`. -/
theorem c5_untyped_decode_fallback :
    (tryParseField [] = none) ∧
    (∀ (span : List Nat) (v : FloatVal), floatParse span = some v →
      tryParseField span = some (FieldValue.float v)) ∧
    (∀ (span s : List Nat), span ≠ [] → floatParse span = none → stringParse span = some s →
      tryParseField span = some (FieldValue.string s)) ∧
    (∀ (span : List Nat), floatParse span = none → stringParse span = none →
      tryParseField span = none) ∧
    tryParseField [51, 48, 46, 50] = some (FieldValue.float (FloatVal.finite 302 (-1))) ∧
    tryParseField [104, 101, 108, 108, 111] =
      some (FieldValue.string [104, 101, 108, 108, 111]) := by
  refine ⟨rfl, ?_, ?_, ?_, by decide, by decide⟩
  · intro span v h
    cases span with
    | nil =>
      simp [show floatParse [] = none from rfl] at h
    | cons a t => simp [tryParseField, h]
  · intro span s hne hf hs
    cases span with
    | nil => exact absurd rfl hne
    | cons a t => simp [tryParseField, hf, hs]
  · intro span hf hs
    cases span with
    | nil => rfl
    | cons a t => simp [tryParseField, hf, hs]

theorem c5_untyped_decode_fallback_witness :
    tryParseField [51, 48, 46, 50] = some (FieldValue.float (FloatVal.finite 302 (-1))) ∧
    tryParseField [104, 101, 108, 108, 111] =
      some (FieldValue.string [104, 101, 108, 108, 111]) :=
  ⟨c5_untyped_decode_fallback.2.1 [51, 48, 46, 50] (FloatVal.finite 302 (-1)) (by decide),
   c5_untyped_decode_fallback.2.2.1 [104, 101, 108, 108, 111] [104, 101, 108, 108, 111]
     (by decide) (by decide) (by decide)⟩

/-- C6 counterexample: a mapping failure (zero-length file) does not
propagate as an error out of `read_file` — the source unwraps it and
panics, so "file cannot be opened or mapping failure" is not the error
condition; only an open failure returns an error. -/
theorem c6_mapping_failure_not_an_error :
    readFile (fun _ => some []) 1 = RResult.panic ∧
    RResult.panic ≠ (RResult.err : RResult (List (List (Option FieldValue)))) :=
  ⟨rfl, by decide⟩

/-- C6 amended: `read_file` returns an error exactly when the file cannot
be opened; a mapping failure panics instead of returning an error; on a
mappable file it returns Ok; and `read` over an in-memory buffer never
returns an error — for every buffer it returns Ok. -/
theorem c6_error_conditions :
    (∀ (fs : Nat → Option (List Nat)) (p : Nat),
      readFile fs p = RResult.err ↔ fs p = none) ∧
    (∀ (fs : Nat → Option (List Nat)) (p : Nat) (contents : List Nat),
      fs p = some contents → contents.length = 0 → readFile fs p = RResult.panic) ∧
    (∀ (fs : Nat → Option (List Nat)) (p : Nat) (contents : List Nat),
      fs p = some contents → contents.length ≠ 0 →
      readFile fs p = RResult.ok ((rowSpans contents).map (defaultRowParse SEMICOLON))) ∧
    (∀ (ρ : Type) (parse : List Nat → ρ) (buf : List Nat),
      csvRead parse buf = Except.ok ((rowSpans buf).map parse)) := by
  refine ⟨?_, ?_, ?_, fun ρ parse buf => rfl⟩
  · intro fs p
    cases hfs : fs p with
    | none => simp [readFile, hfs]
    | some contents =>
      by_cases hlen : contents.length = 0
      · simp [readFile, hfs, mmapFile, hlen, csvRead]
      · simp [readFile, hfs, mmapFile, hlen, csvRead]
  · intro fs p contents hfs hlen
    simp [readFile, hfs, mmapFile, hlen]
  · intro fs p contents hfs hlen
    simp [readFile, hfs, mmapFile, hlen, csvRead]

theorem c6_error_conditions_witness :
    readFile (fun _ => none) 5 = RResult.err ∧
    readFile (fun _ => some [104, 10]) 5 =
      RResult.ok ((rowSpans [104, 10]).map (defaultRowParse SEMICOLON)) :=
  ⟨(c6_error_conditions.1 (fun _ => none) 5).mpr rfl,
   c6_error_conditions.2.2.1 (fun _ => some [104, 10]) 5 [104, 10] rfl (by decide)⟩

/-- C7: every row span yielded by row segmentation is free of the newline
byte (so in particular excludes its terminating newline); appending any
newline-free suffix to a buffer yields the same rows, so a final
unterminated partial line is never yielded; and the yielded rows, each
re-terminated with the newline, tile the buffer up to a newline-free rest. -/
theorem c7_row_spans_newline_free :
    (∀ (buf : List Nat), ∀ r ∈ rowSpans buf, NEWLINE ∉ r) ∧
    (∀ (buf rest : List Nat), NEWLINE ∉ rest → rowSpans (buf ++ rest) = rowSpans buf) ∧
    (∀ (buf : List Nat), ∃ rest, NEWLINE ∉ rest ∧
      buf = joinAll ((rowSpans buf).map (fun r => r ++ [NEWLINE])) ++ rest) :=
  ⟨rowSpans_no_newline, rowSpans_append, rowSpans_tile⟩

theorem c7_row_spans_newline_free_witness :
    rowSpans ([120, 10] ++ [116, 97, 105, 108]) = rowSpans [120, 10] ∧
    NEWLINE ∉ ([116, 97, 105, 108] : List Nat) :=
  ⟨c7_row_spans_newline_free.2.1 [120, 10] [116, 97, 105, 108] (by decide), by decide⟩

/-- C8 counterexample: `FloatParser` accepts the token `inf` (bytes
105,110,102), which is not a token of the claimed decimal/scientific
grammar (optional sign, digits, optional fractional part, optional
exponent), so Float decoding does not succeed *exactly* on that grammar. -/
theorem c8_accepts_inf :
    floatParse [105, 110, 102] = some (FloatVal.inf false) ∧
    trim (utf8Lossy [105, 110, 102]) = [105, 110, 102] ∧
    ¬ specFloatToken [105, 110, 102] := by
  refine ⟨by decide, by decide, ?_⟩
  rintro ⟨s, d, f, e, hcs, hs, hd, hdig, hf, he⟩
  rcases d with _ | ⟨c, dt⟩
  · exact hd rfl
  have hc : c ∈ ([105, 110, 102] : List Nat) := by
    rw [hcs]
    simp
  have hcd := hdig c (List.mem_cons_self _ _)
  have : c = 105 ∨ c = 110 ∨ c = 102 := by simpa using hc
  rcases this with rfl | rfl | rfl <;> simp [isDigitCp] at hcd

/-- C8 amended: Float decoding trims whitespace and then succeeds exactly
on the amended lexical grammar: an optional sign followed by either a
decimal/scientific number — digits with an optional single decimal point,
digits required on at least one side of it, and an optional well-formed
exponent — or one of the case-insensitive special tokens `inf`, `infinity`,
`nan`; it fails on every other token, including empty and whitespace-only
input. -/
theorem c8_float_grammar (span : List Nat) :
    (floatParse span).isSome = true ↔ floatTokenAmended (trim (utf8Lossy span)) :=
  fastFloatParse_isSome_iff (trim (utf8Lossy span))

theorem c8_float_grammar_witness :
    (floatParse [51, 48, 46, 50]).isSome = true ∧
    (floatParse [32, 32]).isSome = false :=
  ⟨(c8_float_grammar [51, 48, 46, 50]).mpr
      ⟨[], [51, 48, 46, 50], rfl, Or.inl rfl,
        Or.inr ⟨[51, 48, 46, 50], [], by simp,
          Or.inr ⟨[51, 48], [50], rfl, by simp [allDigits, isDigitCp], by simp [allDigits, isDigitCp], by decide⟩, Or.inl rfl⟩⟩,
   by decide⟩

/-- C9: Bool decoding is trim-then-exact-match on the case-sensitive
literals `true` and `false`: it succeeds with value `b` exactly when the
trimmed token is the literal for `b`. In particular ` true ` decodes to
true, ` false` to false, and `nope` fails, resolving to no-value at record
level through `try_parse`. -/
theorem c9_bool_decoding :
    (∀ (span : List Nat) (b : Bool),
      boolParse span = some b ↔ trim (utf8Lossy span) = (if b then tokTrue else tokFalse)) ∧
    boolParse [32, 116, 114, 117, 101, 32] = some true ∧
    boolParse [32, 102, 97, 108, 115, 101] = some false ∧
    boolParse [110, 111, 112, 101] = none ∧
    tryParse FieldTy.bool [110, 111, 112, 101] = none :=
  ⟨boolParse_iff, by decide, by decide, by decide, by decide⟩

theorem c9_bool_decoding_witness :
    boolParse [32, 116, 114, 117, 101, 32] = some true :=
  (c9_bool_decoding.1 [32, 116, 114, 117, 101, 32] true).mpr (by decide)

/-- C10: on an empty row span the field-span iterator used by schema
binding yields no field spans at all — its first `next()` already returns
`None`, so collecting any number of spans from an empty row gives the empty
list, not one empty field. -/
theorem c10_empty_row_yields_no_fields :
    (∀ d : Nat, nextFieldS d [] = none) ∧
    (∀ (d k : Nat), iterTake d k [] = []) := by
  refine ⟨fun d => rfl, fun d k => ?_⟩
  cases k
  · rfl
  · rfl

end Csv
